import Mathlib

/-!
Verification of the EquityLens ingestion-and-retrieval pipeline specification
against a shallow embedding of the `backend/app` sources: the page chunker
(`services/document_processor.py`), cosine-similarity vector search
(`services/vector_store.py`), the streaming sentinel filter and citation
extraction (`services/chat_service.py`), the sequential processing queue
(`services/processing_queue.py`) and the reprocess endpoint
(`routers/documents.py`).

Strings are modelled as `List Char`, numpy float vectors as `List ℝ`.
-/

namespace EquityLens

/-! ### Python string primitives -/

/-- The ASCII whitespace characters stripped by Python `str.strip()` and
matched by the regex class `\s`. -/
def isPySpace (c : Char) : Bool :=
  c = ' ' || c = '\t' || c = '\n' || c = '\r' || c = Char.ofNat 11 || c = Char.ofNat 12

/-- Python `s.strip()`. -/
def pyStrip (s : List Char) : List Char :=
  ((s.dropWhile isPySpace).reverse.dropWhile isPySpace).reverse

/-- Python `s[-k:]`: the last `k` characters for `k > 0` (all of `s` when
`k = 0`, since `s[-0:]` is `s[0:]`). -/
def pySliceLast (k : Nat) (s : List Char) : List Char :=
  if k = 0 then s else s.drop (s.length - k)

/-- Python `range(0, n, step)` for a positive `step`: the multiples of
`step` below `n`, in increasing order. -/
def pyRange (n step : Nat) : List Nat :=
  (List.range n).filter (fun i => i % step == 0)

/-! ### Chunker (`DocumentProcessor`, document_processor.py) -/

/-- One line of the loop in `DocumentProcessor._split_into_paragraphs`:
a blank line flushes the current paragraph, a nonblank (stripped) line is
appended to it with a single space. -/
def paraStep (acc : List (List Char) × List Char) (line : List Char) :
    List (List Char) × List Char :=
  let line := pyStrip line
  if line.isEmpty then
    if acc.2.isEmpty then acc else (acc.1 ++ [acc.2], [])
  else
    if acc.2.isEmpty then (acc.1, line) else (acc.1, acc.2 ++ ' ' :: line)

/-- `DocumentProcessor._split_into_paragraphs`: split on newlines, strip each
line, group runs of nonblank lines into space-joined paragraphs. -/
def splitIntoParagraphs (text : List Char) : List (List Char) :=
  let r := (text.splitOn '\n').foldl paraStep ([], [])
  if r.2.isEmpty then r.1 else r.1 ++ [r.2]

/-- A chunk draft as built by the chunker (a Python dict with keys
`content`, `page_number`, `chunk_index`, `metadata`).  `has_tables = some b`
stands for the metadata `{"has_tables": b}`, `none` for `{}`. -/
structure ChunkRec where
  content : List Char
  page_number : Nat
  chunk_index : Nat
  has_tables : Option Bool
  deriving DecidableEq, Repr

/-- A page dict as produced by `stream_pages` / `process_pdf`. -/
structure Page where
  page_number : Nat
  text : List Char
  has_tables : Bool
  deriving DecidableEq, Repr

/-- The slices `para[i:i+size]` for `i in range(0, len(para), size-overlap)`
of the force-split branch of `create_chunks_from_page`. -/
def forcePieces (size overlap : Nat) (para : List Char) : List (List Char) :=
  (pyRange para.length (size - overlap)).map (fun i => (para.drop i).take size)

/-- The inner force-split emission loop of `create_chunks_from_page`:
each slice with nonblank strip is emitted as its own chunk (content
stripped, metadata `{}`), chunk indices assigned sequentially. -/
def emitPieces (pageNo : Nat) : Nat → List (List Char) → List ChunkRec × Nat
  | idx, [] => ([], idx)
  | idx, p :: ps =>
    if (pyStrip p).isEmpty then emitPieces pageNo idx ps
    else
      let r := emitPieces pageNo (idx + 1) ps
      (⟨pyStrip p, pageNo, idx, none⟩ :: r.1, r.2)

/-- The body of the paragraph loop of `create_chunks_from_page`, for one
paragraph: returns the chunks emitted by this iteration, the next chunk
index, and the new accumulation buffer `current_chunk`. -/
def chunkStep (size overlap pageNo : Nat) (ht : Bool) (idx : Nat)
    (cur para : List Char) : List ChunkRec × Nat × List Char :=
  if size < cur.length + para.length then
    if (pyStrip cur).isEmpty then
      let r := emitPieces pageNo idx (forcePieces size overlap para)
      (r.1, r.2, [])
    else
      let ov := if overlap < cur.length then pySliceLast overlap cur else cur
      ([⟨pyStrip cur, pageNo, idx, some ht⟩], idx + 1, ov ++ ' ' :: para)
  else
    ([], idx, if cur.isEmpty then para else cur ++ ' ' :: para)

/-- The paragraph loop of `create_chunks_from_page`. -/
def chunkLoop (size overlap pageNo : Nat) (ht : Bool) :
    Nat → List Char → List (List Char) → List ChunkRec × Nat × List Char
  | idx, cur, [] => ([], idx, cur)
  | idx, cur, para :: ps =>
    let s := chunkStep size overlap pageNo ht idx cur para
    let r := chunkLoop size overlap pageNo ht s.2.1 s.2.2 ps
    (s.1 ++ r.1, r.2)

/-- `DocumentProcessor.create_chunks_from_page`: blank pages emit nothing and
keep the overlap buffer; otherwise the paragraph loop runs with
`current_chunk` seeded from the previous page's overlap text. -/
def createChunksFromPage (size overlap : Nat) (page : Page) (startIdx : Nat)
    (ov : List Char) : List ChunkRec × Nat × List Char :=
  if (pyStrip page.text).isEmpty then ([], startIdx, ov)
  else
    chunkLoop size overlap page.page_number page.has_tables startIdx ov
      (splitIntoParagraphs page.text)

/-- The page loop shared by `DocumentProcessor.create_chunks` and
`ProcessingQueue._stream_and_embed`: thread the chunk index and overlap text
across pages. -/
def createChunksAux (size overlap : Nat) :
    Nat → List Char → List Page → List ChunkRec × Nat × List Char
  | idx, ov, [] => ([], idx, ov)
  | idx, ov, pg :: pgs =>
    let s := createChunksFromPage size overlap pg idx ov
    let r := createChunksAux size overlap s.2.1 s.2.2 pgs
    (s.1 ++ r.1, r.2)

/-- `DocumentProcessor.create_chunks`: run the page loop from index 0 with an
empty overlap buffer, then emit any nonblank trailing buffer as a final
chunk. -/
def createChunks (size overlap : Nat) (pages : List Page) : List ChunkRec :=
  let r := createChunksAux size overlap 0 [] pages
  if (pyStrip r.2.2).isEmpty then r.1
  else r.1 ++ [⟨pyStrip r.2.2, ((pages.getLast?).map Page.page_number).getD 1, r.2.1, none⟩]

/-! ### Vector similarity search (`VectorStore.search`, vector_store.py)

numpy float arrays are idealized as `List ℝ`.  `np.argsort` is modelled as a
stable ascending index sort (numpy's introsort runs insertion sort on short
arrays and keeps equal elements in index order); the code then reverses it
with `[::-1]` and truncates with `[:top_k]`. -/

/-- `np.dot` on two 1-d float vectors. -/
def dotL (v w : List ℝ) : ℝ := (List.zipWith (fun a b => a * b) v w).sum

/-- Squared L2 norm. -/
def normSq (v : List ℝ) : ℝ := dotL v v

/-- `np.linalg.norm`. -/
noncomputable def normL (v : List ℝ) : ℝ := Real.sqrt (normSq v)

/-- Scalar multiple: `vec / t` in the code is `scaleL t⁻¹ vec`. -/
def scaleL (t : ℝ) (v : List ℝ) : List ℝ := v.map (fun x => t * x)

/-- A cached chunk row of the per-document embedding cache: a
`DocumentChunk` identity plus its embedding vector. -/
structure SChunk where
  cid : Nat
  embedding : List ℝ

/-- One entry of the `similarities` array: rows with positive norm get the
dot product of the normalized row with the normalized query, rows with zero
norm keep the initial value 0 (`valid_mask`). -/
noncomputable def simScore (qn c : List ℝ) : ℝ :=
  if 0 < normL c then dotL (scaleL (normL c)⁻¹ c) qn else 0

/-- The full `similarities` array for a query and the cached rows. -/
noncomputable def similarityList (q : List ℝ) (rows : List (List ℝ)) : List ℝ :=
  rows.map (fun c => simScore (scaleL (normL q)⁻¹ q) c)

/-- Insert index `i` after every already-placed index whose value is ≤ its
own (one step of a stable ascending insertion sort). -/
noncomputable def insertIdx (val : Nat → ℝ) (i : Nat) : List Nat → List Nat
  | [] => [i]
  | j :: js => if val j ≤ val i then j :: insertIdx val i js else i :: j :: js

/-- `np.argsort`: the indices `0, …, n-1` sorted ascending by value, equal
values kept in index order. -/
noncomputable def argsortAsc (val : Nat → ℝ) (n : Nat) : List Nat :=
  (List.range n).foldl (fun acc i => insertIdx val i acc) []

/-- The `similarities` array of `VectorStore.search` for a query embedding
and the cached chunk list. -/
noncomputable def searchSims (q : List ℝ) (chunks : List SChunk) : List ℝ :=
  similarityList q (chunks.map SChunk.embedding)

/-- `top_indices = np.argsort(similarities)[::-1][:top_k]`. -/
noncomputable def searchOrder (q : List ℝ) (chunks : List SChunk) (k : Nat) :
    List Nat :=
  ((argsortAsc (fun i => (searchSims q chunks).getD i 0)
    (searchSims q chunks).length).reverse).take k

/-- `VectorStore.search` after the query has been embedded: empty chunk list
(missing document or no embedded chunks) returns `[]`; a zero-norm query
embedding returns `[]`; otherwise the top-k `(chunk, score)` pairs in
`top_indices` order. -/
noncomputable def vsearch (q : List ℝ) (chunks : List SChunk) (k : Nat) :
    List (SChunk × ℝ) :=
  if chunks.isEmpty then []
  else if normL q = 0 then []
  else
    (searchOrder q chunks k).map
      (fun i => (chunks.getD i ⟨0, []⟩, (searchSims q chunks).getD i 0))

/-! ### Facts about the argsort model -/

/-- Strict lexicographic (value, index) order: what a stable ascending sort
realizes on the index list. -/
def lexLt (val : Nat → ℝ) (i j : Nat) : Prop :=
  val i < val j ∨ (val i = val j ∧ i < j)

/-! ### Substring primitives (Python `in`, `split(p, 1)`) -/

/-- Python `p in s` (substring test). -/
def hasSub (p : List Char) : List Char → Bool
  | [] => p.isEmpty
  | c :: rest => p.isPrefixOf (c :: rest) || hasSub p rest

/-- Split around the first occurrence of `p`: `some (before, after)` with
`s = before ++ p ++ after`, or `none` when `p` does not occur.  Python
`s.split(p)[0]` is `before` and `s.split(p, 1)[1]` is `after`. -/
def splitFirst (p : List Char) : List Char → Option (List Char × List Char)
  | [] => if p.isEmpty then some ([], []) else none
  | c :: rest =>
    if p.isPrefixOf (c :: rest) then some ([], (c :: rest).drop p.length)
    else (splitFirst p rest).map (fun r => (c :: r.1, r.2))

/-! ### Streaming sentinel filter (`ChatService.send_message_stream`,
chat_service.py lines 462-512) -/

/-- The opening reasoning sentinel. -/
def thinkTag : List Char := ("<think>").toList

/-- The closing reasoning sentinel. -/
def closeTag : List Char := ("</think>").toList

/-- Python truthiness of `s.strip()`. -/
def stripTruthy (s : List Char) : Bool := !(pyStrip s).isEmpty

/-- The loop state of the streaming filter: `buffer`, `in_thinking`,
`thinking_complete`. -/
structure FiltState where
  buffer : List Char
  inThinking : Bool
  thinkingComplete : Bool
  deriving DecidableEq, Repr

/-- One iteration of the `async for chunk in …` loop of
`send_message_stream`: returns the fragments yielded during this iteration
and the new state.  The first `if` handles an opening sentinel appearing in
the buffer, then the `if/elif/elif` chain handles the closing sentinel, the
pass-through mode after a completed block, and the long-buffer flush with
its 10-character `<` lookback. -/
def stepChunk (st : FiltState) (chunk : List Char) : List (List Char) × FiltState :=
  let buf0 := st.buffer ++ chunk
  let a : List (List Char) × List Char × Bool :=
    if hasSub thinkTag buf0 && !st.inThinking then
      match splitFirst thinkTag buf0 with
      | some r => ((if stripTruthy r.1 then [r.1] else []), r.2, true)
      | none => ([], buf0, true)
    else ([], buf0, st.inThinking)
  let outA := a.1
  let buf1 := a.2.1
  let inTh := a.2.2
  if inTh && hasSub closeTag buf1 then
    match splitFirst closeTag buf1 with
    | some r =>
      if stripTruthy r.2 then (outA ++ [r.2], ⟨[], false, true⟩)
      else (outA, ⟨r.2, false, true⟩)
    | none => (outA, ⟨buf1, false, true⟩)
  else if st.thinkingComplete && !inTh then
    (outA ++ [chunk], ⟨[], inTh, st.thinkingComplete⟩)
  else if !inTh && !st.thinkingComplete && decide (100 < buf1.length) then
    if !((buf1.drop (buf1.length - 10)).contains '<') then
      (outA ++ [buf1], ⟨[], inTh, st.thinkingComplete⟩)
    else (outA, ⟨buf1, inTh, st.thinkingComplete⟩)
  else (outA, ⟨buf1, inTh, st.thinkingComplete⟩)

/-- The whole streaming loop followed by the trailing
`if buffer and not in_thinking: yield buffer`. -/
def runFilter : FiltState → List (List Char) → List (List Char)
  | st, [] => if !st.buffer.isEmpty && !st.inThinking then [st.buffer] else []
  | st, c :: cs =>
    let r := stepChunk st c
    r.1 ++ runFilter r.2 cs

/-- The concatenation of everything `send_message_stream` yields to the
caller for a given sequence of incoming generation chunks. -/
def filterStream (chunks : List (List Char)) : List Char :=
  (runFilter ⟨[], false, false⟩ chunks).flatten

/-! ### `strip_thinking_tags` (chat_service.py lines 87-100)

`re.sub(r'<think>.*?</think>', '', text, flags=re.DOTALL)` removes, left to
right, each leftmost `<think>` that is followed by a `</think>` together
with the (non-greedy) span up to and including that first `</think>`; when
no closing tag follows, nothing more matches and the rest of the string is
kept.  The recursion consumes at least the tag pair each round, so a fuel
bounded by the string length makes it structural. -/

def removeThinkAux : Nat → List Char → List Char
  | 0, s => s
  | fuel + 1, s =>
    match splitFirst thinkTag s with
    | none => s
    | some r1 =>
      match splitFirst closeTag r1.2 with
      | none => s
      | some r2 => r1.1 ++ removeThinkAux fuel r2.2

/-- The `re.sub(r'<think>.*?</think>', '', text, flags=re.DOTALL)` pass. -/
def removeThink (s : List Char) : List Char := removeThinkAux s.length s

/-- `re.sub(r'\n{3,}', '\n\n', text)`: collapse every run of three or more
newlines to exactly two. -/
def collapseNLAux : Nat → List Char → List Char
  | 0, s => s
  | _ + 1, [] => []
  | fuel + 1, c :: rest =>
    if c = '\n' then
      (if 3 ≤ ((c :: rest).takeWhile (fun x => x == '\n')).length then ['\n', '\n']
       else (c :: rest).takeWhile (fun x => x == '\n')) ++
        collapseNLAux fuel ((c :: rest).dropWhile (fun x => x == '\n'))
    else c :: collapseNLAux fuel rest

/-- The newline-collapsing pass of `strip_thinking_tags`. -/
def collapseNL (s : List Char) : List Char := collapseNLAux s.length s

/-- `strip_thinking_tags`: remove complete `<think>…</think>` spans, collapse
3+ newline runs to two, strip leading/trailing whitespace. -/
def stripThinkingTags (s : List Char) : List Char :=
  pyStrip (collapseNL (removeThink s))

/-! ### Citation extraction (`ChatService._extract_citations_from_response`,
chat_service.py lines 538-564)

The regex is `\[Page[s]?\s*(\d+(?:-\d+)?)\]`: a literal `[` immediately
followed by `Page`, an optional `s`, optional whitespace, one or more
digits, an optional `-digits` range, then `]`.  There is no provision for a
document label before `Page`, so markers of the prompt-mandated form
`[TICKER - Page N]` can never match. -/

/-- Match the part of the citation regex after the opening `[`: on success
returns the captured `(digits, optional range digits)` and the number of
characters consumed after the `[`.  The greedy digit runs make regex
backtracking irrelevant: when the optional `-digits` alternative fails, the
bare alternative needs `]` immediately after the first digit run, which is
then impossible. -/
def matchPageTail (rest : List Char) : Option ((List Char × Option (List Char)) × Nat) :=
  if (("Page").toList).isPrefixOf rest then
    let s1 := rest.drop 4
    let hasS : Bool := match s1 with | 's' :: _ => true | _ => false
    let s2 := if hasS then s1.drop 1 else s1
    let ws := s2.takeWhile isPySpace
    let s3 := s2.dropWhile isPySpace
    let d1 := s3.takeWhile Char.isDigit
    let s4 := s3.dropWhile Char.isDigit
    if d1.isEmpty then none
    else
      let base := 4 + (if hasS then 1 else 0) + ws.length + d1.length
      match s4 with
      | '-' :: s5 =>
        let d2 := s5.takeWhile Char.isDigit
        let s6 := s5.dropWhile Char.isDigit
        if d2.isEmpty then none
        else
          match s6 with
          | ']' :: _ => some ((d1, some d2), base + 1 + d2.length + 1)
          | _ => none
      | ']' :: _ => some ((d1, none), base + 1)
      | _ => none
  else none

/-- `re.findall` of the citation pattern: scan left to right, taking
non-overlapping matches and otherwise advancing one character.  The fuel is
bounded by the string length (each step strictly shrinks the input). -/
def findPageRefsAux : Nat → List Char → List (List Char × Option (List Char))
  | 0, _ => []
  | _ + 1, [] => []
  | fuel + 1, c :: rest =>
    if c = '[' then
      match matchPageTail rest with
      | some (cap, k) => cap :: findPageRefsAux fuel (rest.drop k)
      | none => findPageRefsAux fuel rest
    else findPageRefsAux fuel rest

/-- All capture groups of `re.findall(r'\[Page[s]?\s*(\d+(?:-\d+)?)\]', s)`. -/
def findPageRefs (s : List Char) : List (List Char × Option (List Char)) :=
  findPageRefsAux s.length s

/-- Python `int` on a digit string. -/
def digitsToNat (ds : List Char) : Nat :=
  ds.foldl (fun n c => 10 * n + (c.toNat - ('0').toNat)) 0

/-- The `cited_pages` set: single page references contribute their page,
range references `a-b` contribute `range(a, b + 1)`. -/
def citedPages (response : List Char) : List Nat :=
  (findPageRefs response).flatMap (fun m =>
    match m.2 with
    | some d2 => List.range' (digitsToNat m.1) (digitsToNat d2 + 1 - digitsToNat m.1)
    | none => [digitsToNat m.1])

/-- A candidate citation dict: `page_number` plus an identity standing for
the remaining fields (text, score, document). -/
structure CitCand where
  page_number : Nat
  tag : Nat
  deriving DecidableEq, Repr

/-- `ChatService._extract_citations_from_response`: keep, in order, the
available citations whose `page_number` was referenced. -/
def extractCitations (response : List Char) (available : List CitCand) :
    List CitCand :=
  available.filter (fun c => (citedPages response).contains c.page_number)

/-! ### Processing queue (`ProcessingQueue`, processing_queue.py)

`_process_queue` runs as a single task: it pops one `(document_id, path)`
from the FIFO deque at a time and awaits `_process_document_streaming` (plus
`_mark_document_failed` on exception) to completion before the next pop, so
the worker is modelled as a sequential loop emitting an event trace. -/

inductive DocStatus
  | pending
  | processing
  | completed
  | failed
  deriving DecidableEq, Repr

/-- Observable ingestion events: the worker starting a dequeued job
(log line "Starting processing for document …" before the awaited call) and
a committed document-status transition. -/
inductive QEvent
  | started (d : Nat)
  | statusSet (d : Nat) (s : DocStatus)
  deriving DecidableEq, Repr

/-- `_process_document_streaming` (with the caller's exception handler) for
one document: a missing row logs and returns, an already-completed document
is skipped, otherwise status goes to `processing` and then to `completed`
on success or to `failed` on an exception (committed in the handler and
again by `_mark_document_failed`). -/
def processDoc (docExists : Nat → Bool) (status0 : Nat → DocStatus)
    (outcome : Nat → Bool) (d : Nat) : List QEvent :=
  if !docExists d then []
  else if status0 d = DocStatus.completed then []
  else
    QEvent.statusSet d DocStatus.processing ::
      (if outcome d then [QEvent.statusSet d DocStatus.completed]
       else [QEvent.statusSet d DocStatus.failed, QEvent.statusSet d DocStatus.failed])

/-- The worker loop of `_process_queue` over the queued document ids. -/
def workerTrace (docExists : Nat → Bool) (status0 : Nat → DocStatus)
    (outcome : Nat → Bool) : List Nat → List QEvent
  | [] => []
  | d :: ds =>
    QEvent.started d :: (processDoc docExists status0 outcome d ++
      workerTrace docExists status0 outcome ds)

/-- The document id of a `started` event. -/
def startedOf : QEvent → Option Nat
  | QEvent.started d => some d
  | QEvent.statusSet _ _ => none

/-! ### Reprocess endpoint (`reprocess_document`, routers/documents.py
lines 327-361) -/

/-- The `Document` row fields the endpoint touches. -/
structure DocRec where
  status : DocStatus
  error_message : Option (List Char)
  deriving DecidableEq, Repr

/-- `reprocess_document`: 404 when the row is missing, 400 when the status
is `completed` ("Document is already processed successfully"); otherwise the
status is reset to `pending`, the error message cleared, and the document
appended to the processing queue (`add_document`). -/
def reprocess_document (doc : Option DocRec) (queue : List Nat) (docId : Nat) :
    Except Nat (DocRec × List Nat) :=
  match doc with
  | none => Except.error 404
  | some d =>
    if d.status = DocStatus.completed then Except.error 400
    else
      Except.ok ({ d with status := DocStatus.pending, error_message := none },
        queue ++ [docId])

/-! ### Proofs -/

theorem isPrefixOf_eq_true_iff {p s : List Char} : p.isPrefixOf s = true ↔ p <+: s :=
  List.isPrefixOf_iff_prefix

/-! ### Chunk-index contiguity (claim C6) -/

theorem emitPieces_indices (pageNo : Nat) (ps : List (List Char)) (idx : Nat) :
    ∃ k, (emitPieces pageNo idx ps).1.map ChunkRec.chunk_index = List.range' idx k ∧
      (emitPieces pageNo idx ps).2 = idx + k := by
  induction ps generalizing idx with
  | nil => exact ⟨0, rfl, rfl⟩
  | cons p ps ih =>
    by_cases h : (pyStrip p).isEmpty
    · simpa [emitPieces, h] using ih idx
    · obtain ⟨k, hmap, hidx⟩ := ih (idx + 1)
      refine ⟨k + 1, ?_, ?_⟩
      · simp [emitPieces, h, hmap, List.range'_succ]
      · simp [emitPieces, h, hidx]; omega

theorem chunkStep_indices (size overlap pageNo : Nat) (ht : Bool) (idx : Nat)
    (cur para : List Char) :
    ∃ k, (chunkStep size overlap pageNo ht idx cur para).1.map ChunkRec.chunk_index =
        List.range' idx k ∧
      (chunkStep size overlap pageNo ht idx cur para).2.1 = idx + k := by
  unfold chunkStep
  by_cases h1 : size < cur.length + para.length
  · by_cases h2 : (pyStrip cur).isEmpty
    · obtain ⟨k, hmap, hidx⟩ := emitPieces_indices pageNo (forcePieces size overlap para) idx
      exact ⟨k, by simpa [h1, h2] using hmap, by simpa [h1, h2] using hidx⟩
    · exact ⟨1, by simp [h1, h2, List.range'], by simp [h1, h2]⟩
  · exact ⟨0, by simp [h1], by simp [h1]⟩

theorem chunkLoop_indices (size overlap pageNo : Nat) (ht : Bool)
    (ps : List (List Char)) (idx : Nat) (cur : List Char) :
    ∃ k, (chunkLoop size overlap pageNo ht idx cur ps).1.map ChunkRec.chunk_index =
        List.range' idx k ∧
      (chunkLoop size overlap pageNo ht idx cur ps).2.1 = idx + k := by
  induction ps generalizing idx cur with
  | nil => exact ⟨0, rfl, rfl⟩
  | cons p ps ih =>
    obtain ⟨k1, hmap1, hidx1⟩ := chunkStep_indices size overlap pageNo ht idx cur p
    obtain ⟨k2, hmap2, hidx2⟩ :=
      ih (chunkStep size overlap pageNo ht idx cur p).2.1
        (chunkStep size overlap pageNo ht idx cur p).2.2
    rw [hidx1] at hmap2 hidx2
    refine ⟨k1 + k2, ?_, ?_⟩
    · simp only [chunkLoop, List.map_append]
      rw [hmap1, hidx1, hmap2, ← List.range'_append]
      simp
      omega
    · simp only [chunkLoop]
      rw [hidx1, hidx2]
      omega

theorem createChunksFromPage_indices (size overlap : Nat) (page : Page)
    (startIdx : Nat) (ov : List Char) :
    ∃ k, (createChunksFromPage size overlap page startIdx ov).1.map ChunkRec.chunk_index =
        List.range' startIdx k ∧
      (createChunksFromPage size overlap page startIdx ov).2.1 = startIdx + k := by
  unfold createChunksFromPage
  by_cases h : (pyStrip page.text).isEmpty
  · exact ⟨0, by simp [h], by simp [h]⟩
  · simpa [h] using
      chunkLoop_indices size overlap page.page_number page.has_tables
        (splitIntoParagraphs page.text) startIdx ov

theorem createChunksAux_indices (size overlap : Nat) (pages : List Page)
    (idx : Nat) (ov : List Char) :
    ∃ k, (createChunksAux size overlap idx ov pages).1.map ChunkRec.chunk_index =
        List.range' idx k ∧
      (createChunksAux size overlap idx ov pages).2.1 = idx + k := by
  induction pages generalizing idx ov with
  | nil => exact ⟨0, rfl, rfl⟩
  | cons pg pgs ih =>
    obtain ⟨k1, hmap1, hidx1⟩ := createChunksFromPage_indices size overlap pg idx ov
    obtain ⟨k2, hmap2, hidx2⟩ :=
      ih (createChunksFromPage size overlap pg idx ov).2.1
        (createChunksFromPage size overlap pg idx ov).2.2
    rw [hidx1] at hmap2 hidx2
    refine ⟨k1 + k2, ?_, ?_⟩
    · simp only [createChunksAux, List.map_append]
      rw [hmap1, hidx1, hmap2, ← List.range'_append]
      simp
      omega
    · simp only [createChunksAux]
      rw [hidx1, hidx2]
      omega

/-- C6: — For every input page sequence, the `chunk_index` values of the
chunks produced by `DocumentProcessor.create_chunks` (the page loop shared
with `ProcessingQueue._stream_and_embed`, including the final trailing-buffer
chunk) form the contiguous strictly increasing sequence `0, 1, …, n-1`:
the first emitted chunk has index 0 and each subsequent chunk's index is one
greater than the previous one.  Stated for a configuration with
`chunk_overlap < chunk_size` (the shipped settings are 1000 and 200). -/
theorem C6_chunk_index_contiguous (size overlap : Nat) (pages : List Page)
    (hconf : overlap < size) :
    (createChunks size overlap pages).map ChunkRec.chunk_index =
      List.range (createChunks size overlap pages).length := by
  obtain ⟨k, hmap, hidx⟩ := createChunksAux_indices size overlap pages 0 []
  have hlen : (createChunksAux size overlap 0 [] pages).1.length = k := by
    have := congrArg List.length hmap
    simpa using this
  have hidx0 : (createChunksAux size overlap 0 [] pages).2.1 = k := by
    simpa using hidx
  unfold createChunks
  by_cases h : (pyStrip (createChunksAux size overlap 0 [] pages).2.2).isEmpty
  · simp only [h, if_true]
    rw [hlen, hmap, List.range_eq_range']
  · simp only [h, Bool.false_eq_true, if_false]
    rw [List.map_append, hmap, List.length_append, hlen]
    simp [hidx0, List.range_succ, List.range_eq_range']

/-- Witness for C6 at a concrete configuration and page list. -/
theorem C6_chunk_index_contiguous_witness :
    200 < 1000 ∧
      (createChunks 1000 200 [⟨1, ("Alpha revenue grew.").toList, false⟩]).map
          ChunkRec.chunk_index =
        List.range (createChunks 1000 200 [⟨1, ("Alpha revenue grew.").toList, false⟩]).length :=
  ⟨by decide, C6_chunk_index_contiguous 1000 200 _ (by decide)⟩

/-! ### Long-paragraph force split (claim C7) -/

theorem emitPieces_contents (pageNo : Nat) (ps : List (List Char)) (idx : Nat) :
    (emitPieces pageNo idx ps).1.map ChunkRec.content =
      (ps.map pyStrip).filter (fun l => !l.isEmpty) := by
  induction ps generalizing idx with
  | nil => rfl
  | cons p ps ih =>
    by_cases h : (pyStrip p).isEmpty
    · simp [emitPieces, h, ih idx]
    · simp [emitPieces, h, ih (idx + 1)]

/-- C7 counterexample: — The claim "whenever the chunker encounters a
single paragraph longer than the chunk-size budget, the paragraph is split at
fixed-size boundaries with overlap and each piece is emitted as its own
chunk, for every state of the accumulation buffer" is false: with
`chunk_size = 5`, `chunk_overlap = 2`, buffer `"ab"` and paragraph
`"cdefgh"` (length 6 > 5), `create_chunks_from_page`'s loop body emits the
buffer as a single chunk and carries the whole paragraph in the new buffer
instead of force-splitting it. -/
theorem C7_force_split_counterexample :
    5 < (("cdefgh").toList).length ∧
      ¬((chunkStep 5 2 1 false 0 (("ab").toList) (("cdefgh").toList)).1.map
            ChunkRec.content =
          ((forcePieces 5 2 (("cdefgh").toList)).map pyStrip).filter
            (fun l => !l.isEmpty)) := by
  decide

/-- C7 (amended): — The force split happens only when the accumulation
buffer is empty or whitespace-only at the time the over-long paragraph is
encountered: in that case the paragraph is split into the slices
`para[i:i+chunk_size]` for `i = 0, chunk_size-chunk_overlap, …`, each
nonblank slice is emitted as its own chunk (stripped), and the buffer is
cleared.  With a nonblank buffer the paragraph is instead appended after the
overlap and carried in the buffer (see the counterexample). -/
theorem C7_force_split_blank_buffer (size overlap pageNo : Nat) (ht : Bool)
    (idx : Nat) (cur para : List Char) (hbuf : (pyStrip cur).isEmpty)
    (hlen : size < para.length) :
    (chunkStep size overlap pageNo ht idx cur para).1.map ChunkRec.content =
        ((forcePieces size overlap para).map pyStrip).filter (fun l => !l.isEmpty) ∧
      (chunkStep size overlap pageNo ht idx cur para).2.2 = [] := by
  have hcond : size < cur.length + para.length := by omega
  constructor
  · simp [chunkStep, hcond, hbuf, emitPieces_contents]
  · simp [chunkStep, hcond, hbuf]

/-- Witness for the amended C7 at a concrete configuration: whitespace-only
buffer `" "`, paragraph `"abcdefg"` of length 7 > 5. -/
theorem C7_force_split_blank_buffer_witness :
    ((pyStrip [' ']).isEmpty = true ∧ 5 < (("abcdefg").toList).length) ∧
      (chunkStep 5 2 1 false 0 [' '] (("abcdefg").toList)).1.map ChunkRec.content =
          ((forcePieces 5 2 (("abcdefg").toList)).map pyStrip).filter
            (fun l => !l.isEmpty) ∧
        (chunkStep 5 2 1 false 0 [' '] (("abcdefg").toList)).2.2 = [] :=
  ⟨⟨by decide, by decide⟩,
    C7_force_split_blank_buffer 5 2 1 false 0 [' '] (("abcdefg").toList)
      (by decide) (by decide)⟩

/-! ### Facts about the similarity computation -/

theorem dotL_eq_sum (v w : List ℝ) :
    dotL v w = ∑ i in Finset.range (min v.length w.length),
      v.getD i 0 * w.getD i 0 := by
  induction v generalizing w with
  | nil => simp [dotL]
  | cons a v ih =>
    cases w with
    | nil => simp [dotL]
    | cons b w =>
      have hmin : min (a :: v).length (b :: w).length = min v.length w.length + 1 := by
        simp [Nat.succ_min_succ]
      have hdot : dotL (a :: v) (b :: w) = a * b + dotL v w := by
        simp [dotL]
      rw [hdot, ih w, hmin, Finset.sum_range_succ']
      simp [add_comm]

theorem normSq_eq_sum (v : List ℝ) :
    normSq v = ∑ i in Finset.range v.length, v.getD i 0 ^ 2 := by
  rw [normSq, dotL_eq_sum]
  simp [sq]

theorem normSq_nonneg (v : List ℝ) : 0 ≤ normSq v := by
  rw [normSq_eq_sum]
  exact Finset.sum_nonneg fun i _ => sq_nonneg _

theorem dotL_sq_le (v w : List ℝ) : dotL v w ^ 2 ≤ normSq v * normSq w := by
  rw [dotL_eq_sum, normSq_eq_sum, normSq_eq_sum]
  refine le_trans
    (Finset.sum_mul_sq_le_sq_mul_sq _ (fun i => v.getD i 0) (fun i => w.getD i 0)) ?_
  have h1 : (∑ i in Finset.range (min v.length w.length), v.getD i 0 ^ 2) ≤
      ∑ i in Finset.range v.length, v.getD i 0 ^ 2 :=
    Finset.sum_le_sum_of_subset_of_nonneg
      (Finset.range_subset.mpr (Nat.min_le_left _ _)) (fun i _ _ => sq_nonneg _)
  have h2 : (∑ i in Finset.range (min v.length w.length), w.getD i 0 ^ 2) ≤
      ∑ i in Finset.range w.length, w.getD i 0 ^ 2 :=
    Finset.sum_le_sum_of_subset_of_nonneg
      (Finset.range_subset.mpr (Nat.min_le_right _ _)) (fun i _ _ => sq_nonneg _)
  exact mul_le_mul h1 h2 (Finset.sum_nonneg fun i _ => sq_nonneg _)
    (le_trans (Finset.sum_nonneg fun i _ => sq_nonneg _) h1)

theorem normSq_cons (a : ℝ) (v : List ℝ) : normSq (a :: v) = a * a + normSq v := by
  simp [normSq, dotL]

theorem normSq_scaleL (t : ℝ) (v : List ℝ) :
    normSq (scaleL t v) = t ^ 2 * normSq v := by
  induction v with
  | nil => simp [normSq, dotL, scaleL]
  | cons a v ih =>
    have h : scaleL t (a :: v) = (t * a) :: scaleL t v := by simp [scaleL]
    rw [h, normSq_cons, normSq_cons, ih]
    ring

theorem normL_sq (v : List ℝ) : normL v ^ 2 = normSq v :=
  Real.sq_sqrt (normSq_nonneg v)

theorem normSq_ne_zero_of_normL (v : List ℝ) (h : normL v ≠ 0) : normSq v ≠ 0 := by
  intro h0
  exact h (by simp [normL, h0, Real.sqrt_zero])

theorem normSq_normalize (v : List ℝ) (h : normL v ≠ 0) :
    normSq (scaleL (normL v)⁻¹ v) = 1 := by
  rw [normSq_scaleL, inv_pow, normL_sq]
  exact inv_mul_cancel₀ (normSq_ne_zero_of_normL v h)

theorem simScore_bounds (qn c : List ℝ) (hq : normSq qn = 1) :
    -1 ≤ simScore qn c ∧ simScore qn c ≤ 1 := by
  unfold simScore
  by_cases h : 0 < normL c
  · simp only [h, if_true]
    have hcs : dotL (scaleL (normL c)⁻¹ c) qn ^ 2 ≤
        normSq (scaleL (normL c)⁻¹ c) * normSq qn := dotL_sq_le _ _
    rw [normSq_normalize c (ne_of_gt h), hq, one_mul] at hcs
    constructor <;> nlinarith [hcs]
  · simp only [h, if_false]
    norm_num

theorem insertIdx_mem (val : Nat → ℝ) (i x : Nat) (l : List Nat) :
    x ∈ insertIdx val i l ↔ x = i ∨ x ∈ l := by
  induction l with
  | nil => simp [insertIdx]
  | cons j js ih =>
    by_cases h : val j ≤ val i
    · simp only [insertIdx, h, if_true, List.mem_cons, ih]
      tauto
    · simp only [insertIdx, h, if_false, List.mem_cons]

theorem insertIdx_length (val : Nat → ℝ) (i : Nat) (l : List Nat) :
    (insertIdx val i l).length = l.length + 1 := by
  induction l with
  | nil => rfl
  | cons j js ih =>
    by_cases h : val j ≤ val i
    · simp [insertIdx, h, ih]
    · simp [insertIdx, h]

theorem insertIdx_pairwise (val : Nat → ℝ) (i : Nat) (l : List Nat)
    (hl : l.Pairwise (lexLt val)) (hbound : ∀ j ∈ l, j < i) :
    (insertIdx val i l).Pairwise (lexLt val) := by
  induction l with
  | nil => simp [insertIdx, List.Pairwise]
  | cons j js ih =>
    rw [List.pairwise_cons] at hl
    obtain ⟨hj, hjs⟩ := hl
    by_cases h : val j ≤ val i
    · have hmem : ∀ x ∈ insertIdx val i js, lexLt val j x := by
        intro x hx
        rcases (insertIdx_mem val i x js).mp hx with rfl | hx
        · rcases lt_or_eq_of_le h with hlt | heq
          · exact Or.inl hlt
          · exact Or.inr ⟨heq, hbound j (by simp)⟩
        · exact hj x hx
      have := ih hjs (fun x hx => hbound x (by simp [hx]))
      simp only [insertIdx, h, if_true]
      exact List.pairwise_cons.mpr ⟨hmem, this⟩
    · have hlt : val i < val j := lt_of_not_le h
      simp only [insertIdx, h, if_false]
      refine List.pairwise_cons.mpr ⟨?_, List.pairwise_cons.mpr ⟨hj, hjs⟩⟩
      intro x hx
      rcases List.mem_cons.mp hx with rfl | hx
      · exact Or.inl hlt
      · rcases hj x hx with hxj | ⟨hxe, _⟩
        · exact Or.inl (lt_trans hlt hxj)
        · exact Or.inl (lt_of_lt_of_eq hlt hxe)

theorem foldl_insertIdx_pairwise (val : Nat → ℝ) (l acc : List Nat)
    (hacc : acc.Pairwise (lexLt val)) (hbound : ∀ j ∈ acc, ∀ i ∈ l, j < i)
    (hl : l.Pairwise (· < ·)) :
    (l.foldl (fun acc i => insertIdx val i acc) acc).Pairwise (lexLt val) := by
  induction l generalizing acc with
  | nil => exact hacc
  | cons i l ih =>
    rw [List.pairwise_cons] at hl
    obtain ⟨hi, hl⟩ := hl
    refine ih (insertIdx val i acc) ?_ ?_ hl
    · exact insertIdx_pairwise val i acc hacc fun j hj => hbound j hj i (by simp)
    · intro j hj i' hi'
      rcases (insertIdx_mem val i j acc).mp hj with rfl | hj
      · exact hi i' hi'
      · exact hbound j hj i' (by simp [hi'])

theorem argsortAsc_pairwise (val : Nat → ℝ) (n : Nat) :
    (argsortAsc val n).Pairwise (lexLt val) :=
  foldl_insertIdx_pairwise val (List.range n) [] (by simp)
    (by simp) (List.pairwise_lt_range n)

theorem foldl_insertIdx_length (val : Nat → ℝ) (l acc : List Nat) :
    (l.foldl (fun acc i => insertIdx val i acc) acc).length =
      acc.length + l.length := by
  induction l generalizing acc with
  | nil => simp
  | cons i l ih =>
    simp only [List.foldl_cons, ih (insertIdx val i acc), insertIdx_length,
      List.length_cons]
    omega

theorem argsortAsc_length (val : Nat → ℝ) (n : Nat) :
    (argsortAsc val n).length = n := by
  simpa using foldl_insertIdx_length val (List.range n) []

theorem getD_bounds (l : List ℝ) (h : ∀ x ∈ l, -1 ≤ x ∧ x ≤ 1) (i : Nat) :
    -1 ≤ l.getD i 0 ∧ l.getD i 0 ≤ 1 := by
  induction l generalizing i with
  | nil => norm_num [List.getD]
  | cons a l ih =>
    cases i with
    | zero => simpa using h a (by simp)
    | succ n => simpa using ih (fun x hx => h x (by simp [hx])) n

theorem getD_zero (l : List ℝ) (h : ∀ x ∈ l, x = 0) (i : Nat) : l.getD i 0 = 0 := by
  induction l generalizing i with
  | nil => norm_num [List.getD]
  | cons a l ih =>
    cases i with
    | zero => simpa using h a (by simp)
    | succ n => simpa using ih (fun x hx => h x (by simp [hx])) n

theorem searchSims_length (q : List ℝ) (chunks : List SChunk) :
    (searchSims q chunks).length = chunks.length := by
  simp [searchSims, similarityList]

theorem searchSims_mem_bounds (q : List ℝ) (chunks : List SChunk)
    (hq : normL q ≠ 0) : ∀ x ∈ searchSims q chunks, -1 ≤ x ∧ x ≤ 1 := by
  intro x hx
  simp only [searchSims, similarityList, List.map_map, List.mem_map,
    Function.comp] at hx
  obtain ⟨c, _, rfl⟩ := hx
  exact simScore_bounds _ _ (normSq_normalize q hq)

/-! ### Claim C2: ranking contract of `VectorStore.search` -/

/-- C2 counterexample: — The claim that chunks with equal score appear in
their original chunk order is false: with a query of norm 1 and two cached
chunks whose embeddings are identical (both scoring 1), the code's
`np.argsort(similarities)[::-1]` reverses the stable ascending order, so the
second chunk is returned before the first. -/
theorem C2_stable_tie_counterexample :
    normL [(1 : ℝ)] ≠ 0 ∧
      (vsearch [(1 : ℝ)] [⟨0, [1]⟩, ⟨1, [1]⟩] 2).map (fun p => p.1.cid) = [1, 0] := by
  have hn : normL [(1 : ℝ)] = 1 := by
    norm_num [normL, normSq, dotL, Real.sqrt_one]
  have hsims : searchSims [(1 : ℝ)] [⟨0, [1]⟩, ⟨1, [1]⟩] = [1, 1] := by
    norm_num [searchSims, similarityList, simScore, scaleL, dotL, hn]
  have hord : searchOrder [(1 : ℝ)] [⟨0, [1]⟩, ⟨1, [1]⟩] 2 = [1, 0] := by
    rw [searchOrder, hsims]
    norm_num [argsortAsc, insertIdx, List.range_succ, List.getD]
  refine ⟨by rw [hn]; norm_num, ?_⟩
  rw [vsearch]
  rw [if_neg (by norm_num), if_neg (by rw [hn]; norm_num)]
  rw [hord]
  simp [List.getD]

/-- C2 (amended): — For every query embedding of non-zero norm, every
cached chunk list and every `k`: `VectorStore.search` returns at most `k`
pairs, every score lies in `[-1, 1]`, the scores are sorted in descending
order, and the returned ranking is strictly ordered by (score, original
index) with ties broken by *reverse* original chunk order (the code reverses
a stable ascending argsort, see the counterexample). -/
theorem C2_search_ranking (q : List ℝ) (chunks : List SChunk) (k : Nat)
    (hq : normL q ≠ 0) :
    (vsearch q chunks k).length ≤ k ∧
      (∀ p ∈ vsearch q chunks k, -1 ≤ p.2 ∧ p.2 ≤ 1) ∧
      ((vsearch q chunks k).map Prod.snd).Pairwise (fun a b => b ≤ a) ∧
      (searchOrder q chunks k).Pairwise (fun i j =>
        (searchSims q chunks).getD j 0 < (searchSims q chunks).getD i 0 ∨
          ((searchSims q chunks).getD i 0 = (searchSims q chunks).getD j 0 ∧
            j < i)) := by
  have horder : (searchOrder q chunks k).Pairwise (fun i j =>
      (searchSims q chunks).getD j 0 < (searchSims q chunks).getD i 0 ∨
        ((searchSims q chunks).getD i 0 = (searchSims q chunks).getD j 0 ∧
          j < i)) := by
    have h1 := argsortAsc_pairwise (fun i => (searchSims q chunks).getD i 0)
      (searchSims q chunks).length
    have h2 := (List.pairwise_reverse).mpr h1
    have h3 := h2.sublist (List.take_sublist k _)
    refine h3.imp ?_
    intro a b hab
    rcases hab with hlt | ⟨heq, hidx⟩
    · exact Or.inl hlt
    · exact Or.inr ⟨heq.symm, hidx⟩
  by_cases hchunks : chunks.isEmpty
  · refine ⟨?_, ?_, ?_, horder⟩ <;> simp [vsearch, hchunks]
  · have hv : vsearch q chunks k = (searchOrder q chunks k).map
        (fun i => (chunks.getD i ⟨0, []⟩, (searchSims q chunks).getD i 0)) := by
      rw [vsearch, if_neg (by simp [hchunks]), if_neg hq]
    refine ⟨?_, ?_, ?_, horder⟩
    · rw [hv, List.length_map, searchOrder, List.length_take]
      exact Nat.min_le_left _ _
    · intro p hp
      rw [hv] at hp
      obtain ⟨i, _, rfl⟩ := List.mem_map.mp hp
      exact getD_bounds _ (searchSims_mem_bounds q chunks hq) i
    · rw [hv, List.map_map]
      refine horder.map _ ?_
      intro a b hab
      show (searchSims q chunks).getD b 0 ≤ (searchSims q chunks).getD a 0
      rcases hab with hlt | ⟨heq, _⟩
      · exact le_of_lt hlt
      · exact le_of_eq heq.symm

/-- Witness for the amended C2 at a concrete query and chunk list. -/
theorem C2_search_ranking_witness :
    normL [(1 : ℝ)] ≠ 0 ∧
      ((vsearch [(1 : ℝ)] [⟨0, [1]⟩] 5).length ≤ 5 ∧
        (∀ p ∈ vsearch [(1 : ℝ)] [⟨0, [1]⟩] 5, -1 ≤ p.2 ∧ p.2 ≤ 1) ∧
        ((vsearch [(1 : ℝ)] [⟨0, [1]⟩] 5).map Prod.snd).Pairwise
          (fun a b => b ≤ a) ∧
        (searchOrder [(1 : ℝ)] [⟨0, [1]⟩] 5).Pairwise (fun i j =>
          (searchSims [(1 : ℝ)] [⟨0, [1]⟩]).getD j 0 <
              (searchSims [(1 : ℝ)] [⟨0, [1]⟩]).getD i 0 ∨
            ((searchSims [(1 : ℝ)] [⟨0, [1]⟩]).getD i 0 =
                (searchSims [(1 : ℝ)] [⟨0, [1]⟩]).getD j 0 ∧ j < i))) :=
  have hn : normL [(1 : ℝ)] ≠ 0 := by
    norm_num [normL, normSq, dotL, Real.sqrt_one]
  ⟨hn, C2_search_ranking [(1 : ℝ)] [⟨0, [1]⟩] 5 hn⟩

/-! ### Claim C5: zero-norm chunks and the degenerate case -/

/-- C5 counterexample: — The claim that search returns the empty list when
all cached chunk embeddings have zero norm is false: with one cached chunk
whose embedding is the zero vector and a query of norm 1, `search` returns
that chunk with score 0 rather than the empty list (the `valid_mask` branch
leaves `similarities` as zeros and `argsort` still ranks every row). -/
theorem C5_degenerate_counterexample :
    normL [(0 : ℝ), 0] = 0 ∧ normL [(1 : ℝ)] ≠ 0 ∧
      vsearch [(1 : ℝ)] [⟨0, [0, 0]⟩] 5 = [(⟨0, [0, 0]⟩, 0)] := by
  have hn0 : normL [(0 : ℝ), 0] = 0 := by
    norm_num [normL, normSq, dotL, Real.sqrt_zero]
  have hn : normL [(1 : ℝ)] = 1 := by
    norm_num [normL, normSq, dotL, Real.sqrt_one]
  have hsims : searchSims [(1 : ℝ)] [⟨0, [0, 0]⟩] = [0] := by
    norm_num [searchSims, similarityList, simScore, hn0]
  have hord : searchOrder [(1 : ℝ)] [⟨0, [0, 0]⟩] 5 = [0] := by
    rw [searchOrder, hsims]
    norm_num [argsortAsc, insertIdx, List.range_succ]
  refine ⟨hn0, by rw [hn]; norm_num, ?_⟩
  rw [vsearch, if_neg (by norm_num), if_neg (by rw [hn]; norm_num), hord, hsims]
  simp [List.getD]

/-- C5 (amended): — Every cached chunk whose embedding has zero norm
receives score 0, but zero-norm chunks are never excluded from the returned
ranking: for a non-zero-norm query, `search` always returns
`min(top_k, n)` pairs, and in the degenerate case where all cached chunk
embeddings have zero norm it returns `min(top_k, n)` chunks each with
score 0 — not the empty list (see the counterexample). -/
theorem C5_zero_norm_chunks (q : List ℝ) (chunks : List SChunk) (k : Nat)
    (hq : normL q ≠ 0) :
    (∀ c ∈ chunks, normL c.embedding = 0 →
        simScore (scaleL (normL q)⁻¹ q) c.embedding = 0) ∧
      (vsearch q chunks k).length = min k chunks.length ∧
      ((∀ c ∈ chunks, normL c.embedding = 0) →
        ∀ p ∈ vsearch q chunks k, p.2 = 0) := by
  have hscore : ∀ c ∈ chunks, normL c.embedding = 0 →
      simScore (scaleL (normL q)⁻¹ q) c.embedding = 0 := by
    intro c _ hc
    rw [simScore, if_neg (by rw [hc]; norm_num)]
  by_cases hchunks : chunks.isEmpty
  · have : chunks = [] := List.isEmpty_iff.mp hchunks
    subst this
    refine ⟨hscore, ?_, ?_⟩ <;> simp [vsearch]
  · have hv : vsearch q chunks k = (searchOrder q chunks k).map
        (fun i => (chunks.getD i ⟨0, []⟩, (searchSims q chunks).getD i 0)) := by
      rw [vsearch, if_neg (by simp [hchunks]), if_neg hq]
    refine ⟨hscore, ?_, ?_⟩
    · rw [hv, List.length_map, searchOrder, List.length_take,
        List.length_reverse, argsortAsc_length, searchSims_length]
    · intro hall p hp
      rw [hv] at hp
      obtain ⟨i, _, rfl⟩ := List.mem_map.mp hp
      refine getD_zero _ ?_ i
      intro x hx
      simp only [searchSims, similarityList, List.map_map, List.mem_map,
        Function.comp] at hx
      obtain ⟨c, hc, rfl⟩ := hx
      exact hscore c hc (hall c hc)

/-- Witness for the amended C5: one zero-embedding chunk, unit query. -/
theorem C5_zero_norm_chunks_witness :
    normL [(1 : ℝ)] ≠ 0 ∧
      ((∀ c ∈ [(⟨0, [0, 0]⟩ : SChunk)], normL c.embedding = 0 →
          simScore (scaleL (normL [(1 : ℝ)])⁻¹ [(1 : ℝ)]) c.embedding = 0) ∧
        (vsearch [(1 : ℝ)] [⟨0, [0, 0]⟩] 5).length = min 5 1 ∧
        ((∀ c ∈ [(⟨0, [0, 0]⟩ : SChunk)], normL c.embedding = 0) →
          ∀ p ∈ vsearch [(1 : ℝ)] [⟨0, [0, 0]⟩] 5, p.2 = 0)) :=
  have hn : normL [(1 : ℝ)] ≠ 0 := by
    norm_num [normL, normSq, dotL, Real.sqrt_one]
  ⟨hn, by
    have h := C5_zero_norm_chunks [(1 : ℝ)] [⟨0, [0, 0]⟩] 5 hn
    simpa using h⟩

/-! ### Claim C9: missing document / no embedded chunks -/

/-- C9 counterexample: — The claim that a search against a missing
document or one with no embedded chunks surfaces a not-found condition
distinguishable from an ordinary successful result is false: the code
returns a plain empty list, the very same value an ordinary successful
search returns for `top_k = 0` on an existing document with chunks; no
`DocumentNotFound` / `NoChunksAvailable` error exists in the code. -/
theorem C9_not_found_counterexample :
    vsearch [(1 : ℝ)] [] 5 = [] ∧ vsearch [(1 : ℝ)] [⟨0, [1]⟩] 0 = [] ∧
      vsearch [(1 : ℝ)] [] 5 = vsearch [(1 : ℝ)] [⟨0, [1]⟩] 0 := by
  have hn : normL [(1 : ℝ)] = 1 := by
    norm_num [normL, normSq, dotL, Real.sqrt_one]
  have h1 : vsearch [(1 : ℝ)] [] 5 = [] := by simp [vsearch]
  have h2 : vsearch [(1 : ℝ)] [⟨0, [1]⟩] 0 = [] := by
    rw [vsearch, if_neg (by norm_num), if_neg (by rw [hn]; norm_num)]
    simp [searchOrder]
  exact ⟨h1, h2, by rw [h1, h2]⟩

/-- C9 (amended): — A query-time search against a document id that does
not exist or whose document has no chunks with a non-null embedding returns
the empty list to the immediate caller (the `if not chunks: return []`
branch); no distinct not-found error is raised and nothing is retried, and
the empty list coincides with ordinary empty results such as `top_k = 0`. -/
theorem C9_empty_chunks_returns_empty (q : List ℝ) (k : Nat) :
    vsearch q [] k = [] ∧ vsearch [(1 : ℝ)] [⟨0, [1]⟩] 0 = [] := by
  constructor
  · simp [vsearch]
  · have hn : normL [(1 : ℝ)] = 1 := by
      norm_num [normL, normSq, dotL, Real.sqrt_one]
    rw [vsearch, if_neg (by norm_num), if_neg (by rw [hn]; norm_num)]
    simp [searchOrder]

theorem hasSub_iff_infixOf (p s : List Char) : hasSub p s = true ↔ p <:+: s := by
  induction s with
  | nil => simp [hasSub, List.isEmpty_iff]
  | cons c rest ih =>
    simp only [hasSub, Bool.or_eq_true, isPrefixOf_eq_true_iff, ih,
      List.infix_cons_iff]

theorem splitFirst_eq (p s b a : List Char)
    (h : splitFirst p s = some (b, a)) : s = b ++ p ++ a := by
  induction s generalizing b a with
  | nil =>
    by_cases hp : p.isEmpty
    · have hpn : p = [] := List.isEmpty_iff.mp hp
      subst hpn
      simp only [splitFirst, List.isEmpty_nil, if_true, Option.some.injEq,
        Prod.mk.injEq] at h
      obtain ⟨hb, ha⟩ := h
      subst hb
      subst ha
      rfl
    · simp [splitFirst, hp] at h
  | cons c rest ih =>
    by_cases hp : p.isPrefixOf (c :: rest)
    · simp only [splitFirst, hp, if_true, Option.some.injEq, Prod.mk.injEq] at h
      obtain ⟨hb, ha⟩ := h
      subst hb
      subst ha
      obtain ⟨t, ht⟩ := isPrefixOf_eq_true_iff.mp hp
      rw [List.nil_append, ← ht, List.drop_left]
    · simp only [splitFirst, hp, Bool.false_eq_true, if_false] at h
      cases hsf : splitFirst p rest with
      | none => rw [hsf] at h; simp at h
      | some r =>
        rw [hsf] at h
        simp only [Option.map_some', Option.some.injEq, Prod.mk.injEq] at h
        obtain ⟨hb, ha⟩ := h
        subst hb
        subst ha
        have hr := ih r.1 r.2 (by rw [hsf])
        simp [hr]

theorem splitFirst_infixOf (p s : List Char) (r : List Char × List Char)
    (h : splitFirst p s = some r) : p <:+: s := by
  have he := splitFirst_eq p s r.1 r.2 (by rw [h])
  exact ⟨r.1, r.2, he.symm⟩

theorem splitFirst_isSome_of_hasSub (p s : List Char) (h : hasSub p s = true) :
    (splitFirst p s).isSome := by
  induction s with
  | nil =>
    simp only [hasSub] at h
    simp [splitFirst, h]
  | cons c rest ih =>
    simp only [hasSub, Bool.or_eq_true] at h
    by_cases hp : p.isPrefixOf (c :: rest)
    · simp [splitFirst, hp]
    · rcases h with h | h
      · exact absurd h hp
      · have := ih h
        simp only [splitFirst, hp, Bool.false_eq_true, if_false]
        simpa using this

/-! ### Claim C3: re-chunking invariance of the sentinel filter -/

/-- C3 counterexample: — The filter's output is not invariant under
re-chunking of the same total byte stream: for the total stream
`"a<think>x</think> b"`, delivering it as a single chunk yields `"a b"`,
while splitting it as `"a<think>x</think> "` + `"b"` yields `"ab"` — the
whitespace left after the closing sentinel is kept in a pending buffer that
the pass-through branch then discards (it yields `chunk`, not `buffer`). -/
theorem C3_rechunk_counterexample :
    [("a<think>x</think> b").toList].flatten =
        [("a<think>x</think> ").toList, ("b").toList].flatten ∧
      filterStream [("a<think>x</think> b").toList] = ("a b").toList ∧
      filterStream [("a<think>x</think> ").toList, ("b").toList] = ("ab").toList ∧
      filterStream [("a<think>x</think> b").toList] ≠
        filterStream [("a<think>x</think> ").toList, ("b").toList] := by
  decide

theorem runFilter_cons (st : FiltState) (c : List Char) (cs : List (List Char)) :
    runFilter st (c :: cs) =
      (stepChunk st c).1 ++ runFilter (stepChunk st c).2 cs := rfl

theorem runFilter_no_sentinel (cs : List (List Char)) (buf : List Char)
    (h : ¬ thinkTag <:+: buf ++ cs.flatten) :
    (runFilter ⟨buf, false, false⟩ cs).flatten = buf ++ cs.flatten := by
  induction cs generalizing buf with
  | nil =>
    by_cases hb : buf.isEmpty
    · have hbn : buf = [] := List.isEmpty_iff.mp hb
      subst hbn
      simp [runFilter]
    · simp [runFilter, hb]
  | cons c cs ih =>
    have hpre : (buf ++ c) ++ cs.flatten = buf ++ (c :: cs).flatten := by simp
    have hfull : ¬ thinkTag <:+: (buf ++ c) ++ cs.flatten := by
      rw [hpre]; exact h
    have hnothere : hasSub thinkTag (buf ++ c) = false := by
      rw [← Bool.not_eq_true, hasSub_iff_infixOf]
      intro hinf
      exact hfull (hinf.trans (List.prefix_append (buf ++ c) cs.flatten).isInfix)
    have htail1 : ¬ thinkTag <:+: cs.flatten := by
      intro hinf
      exact hfull (hinf.trans (List.suffix_append (buf ++ c) cs.flatten).isInfix)
    rw [runFilter_cons]
    by_cases hd : 100 < buf.length + c.length
    · by_cases hlt : '<' ∈ List.drop (buf.length + c.length - 10) (buf ++ c)
      · have hstep : stepChunk ⟨buf, false, false⟩ c =
            ([], ⟨buf ++ c, false, false⟩) := by
          simp [stepChunk, hnothere, hd, hlt]
        rw [hstep]
        simp only [List.nil_append]
        rw [ih (buf ++ c) hfull]
        simp
      · have hstep : stepChunk ⟨buf, false, false⟩ c =
            ([buf ++ c], ⟨[], false, false⟩) := by
          simp [stepChunk, hnothere, hd, hlt]
        rw [hstep]
        have h0 := ih [] (by simpa using htail1)
        simp only [List.nil_append] at h0
        simp [h0]
    · have hstep : stepChunk ⟨buf, false, false⟩ c =
          ([], ⟨buf ++ c, false, false⟩) := by
        simp [stepChunk, hnothere, hd]
      rw [hstep]
      simp only [List.nil_append]
      rw [ih (buf ++ c) hfull]
      simp

/-- C3 (amended): — Re-chunking invariance holds for every total stream
that contains no `<think>` sentinel: the filter then passes the stream
through unchanged, so any two chunkings of the same total produce identical
output.  When sentinels do occur, chunk boundaries can change the output
(the counterexample drops a space). -/
theorem C3_sentinel_free_invariance (cs ds : List (List Char))
    (hfree : ¬ thinkTag <:+: cs.flatten) (heq : cs.flatten = ds.flatten) :
    filterStream cs = filterStream ds := by
  have h1 := runFilter_no_sentinel cs [] (by simpa using hfree)
  have h2 := runFilter_no_sentinel ds [] (by simpa using (heq ▸ hfree))
  rw [filterStream, filterStream, h1, h2]
  simpa using heq

/-- Witness for the amended C3: the stream `"ab"` delivered as one chunk or
as two. -/
theorem C3_sentinel_free_invariance_witness :
    (¬ thinkTag <:+: [("ab").toList].flatten ∧
        [("ab").toList].flatten = [("a").toList, ("b").toList].flatten) ∧
      filterStream [("ab").toList] = filterStream [("a").toList, ("b").toList] :=
  ⟨⟨by decide, by decide⟩,
    C3_sentinel_free_invariance [("ab").toList] [("a").toList, ("b").toList]
      (by decide) (by decide)⟩

/-! ### Claim C10: unmatched opening sentinel -/

/-- C10 counterexample: — Taken literally, "all text after the unmatched
opening tag is preserved in the function's output" is false: for the input
`"<think>a\n\n\n\nb"` (opening tag, no closing tag) the tag-removal pass
keeps everything, but the whitespace normalization collapses the four
newlines to two, so the text after the tag — `"a\n\n\n\nb"` — appears in the
output neither contiguously nor even as a subsequence. -/
theorem C10_literal_preservation_counterexample :
    hasSub thinkTag (("<think>a\n\n\n\nb").toList) = true ∧
      hasSub closeTag (("<think>a\n\n\n\nb").toList) = false ∧
      stripThinkingTags (("<think>a\n\n\n\nb").toList) =
        ("<think>a\n\nb").toList ∧
      hasSub (("a\n\n\n\nb").toList)
          (stripThinkingTags (("<think>a\n\n\n\nb").toList)) = false ∧
      (("a\n\n\n\nb").toList).isSublist
          (stripThinkingTags (("<think>a\n\n\n\nb").toList)) = false := by
  refine ⟨by decide, by decide, by decide, by decide, by decide⟩

theorem removeThinkAux_unmatched (s : List Char) (fuel : Nat)
    (h2 : hasSub closeTag s = false) : removeThinkAux fuel s = s := by
  cases fuel with
  | zero => rfl
  | succ n =>
    rw [removeThinkAux]
    cases h1 : splitFirst thinkTag s with
    | none => rfl
    | some r1 =>
      cases hc : splitFirst closeTag r1.2 with
      | none => simp [hc]
      | some r2 =>
        exfalso
        have hinf1 : closeTag <:+: r1.2 := splitFirst_infixOf _ _ _ hc
        have he1 := splitFirst_eq thinkTag s r1.1 r1.2 (by rw [h1])
        have hsuf : r1.2 <:+: s := by
          rw [he1]
          exact (List.suffix_append (r1.1 ++ thinkTag) r1.2).isInfix
        have : hasSub closeTag s = true :=
          (hasSub_iff_infixOf _ _).mpr (hinf1.trans hsuf)
        rw [this] at h2
        simp at h2

/-- C10 (amended): — `strip_thinking_tags` removes only complete
`<think>…</think>` pairs: for every input containing `<think>` but no
`</think>`, the tag-removal pass returns the input unchanged, so the output
is exactly the input with 3+-newline runs collapsed to two and outer
whitespace stripped; and the assistant message persisted after streaming can
retain reasoning text the live filter suppressed — on the stream
`"<think>abc"` the filter yields nothing while the persisted cleaned
response still contains `"abc"`. -/
theorem C10_unmatched_open_preserved (s : List Char)
    (h1 : hasSub thinkTag s = true) (h2 : hasSub closeTag s = false) :
    (removeThink s = s ∧ stripThinkingTags s = pyStrip (collapseNL s)) ∧
      filterStream [("<think>abc").toList] = [] ∧
      hasSub (("abc").toList)
        (stripThinkingTags (("<think>abc").toList)) = true := by
  have hrm : removeThink s = s := removeThinkAux_unmatched s s.length h2
  exact ⟨⟨hrm, by rw [stripThinkingTags, hrm]⟩, by decide, by decide⟩

/-- Witness for the amended C10 at `"<think>abc"`. -/
theorem C10_unmatched_open_preserved_witness :
    (hasSub thinkTag (("<think>abc").toList) = true ∧
        hasSub closeTag (("<think>abc").toList) = false) ∧
      removeThink (("<think>abc").toList) = ("<think>abc").toList :=
  ⟨⟨by decide, by decide⟩,
    (C10_unmatched_open_preserved (("<think>abc").toList)
      (by decide) (by decide)).1.1⟩

/-- C4: — The extraction regex `\[Page[s]?\s*(\d+(?:-\d+)?)\]` cannot
match labelled markers: for an answer containing `[X - Page 3]` and
`[X - Page 7]` and candidates for pages 1, 3, 5, 7, the extracted subset is
empty — not the candidates for pages 3 and 7 as the claim (and the system
prompt's mandated `[TICKER - Page X]` format) requires.  Bare `[Page N]`
markers do extract exactly the referenced subset. -/
theorem C4_citation_extraction_divergence :
    extractCitations (("See [X - Page 3] and [X - Page 7].").toList)
        [⟨1, 0⟩, ⟨3, 1⟩, ⟨5, 2⟩, ⟨7, 3⟩] = [] ∧
      extractCitations (("See [Page 3] and [Page 7].").toList)
        [⟨1, 0⟩, ⟨3, 1⟩, ⟨5, 2⟩, ⟨7, 3⟩] = [⟨3, 1⟩, ⟨7, 3⟩] := by
  constructor
  · decide
  · decide

theorem processDoc_no_started (docExists : Nat → Bool)
    (status0 : Nat → DocStatus) (outcome : Nat → Bool) (d d' : Nat) :
    QEvent.started d' ∉ processDoc docExists status0 outcome d := by
  unfold processDoc
  by_cases h1 : docExists d
  · by_cases h2 : status0 d = DocStatus.completed
    · simp [h1, h2]
    · by_cases h3 : outcome d
      · simp [h1, h2, h3]
      · simp [h1, h2, h3]
  · simp [h1]

theorem processDoc_filterMap (docExists : Nat → Bool)
    (status0 : Nat → DocStatus) (outcome : Nat → Bool) (d : Nat) :
    (processDoc docExists status0 outcome d).filterMap startedOf = [] := by
  unfold processDoc
  by_cases h1 : docExists d
  · by_cases h2 : status0 d = DocStatus.completed
    · simp [h1, h2]
    · by_cases h3 : outcome d
      · simp [h1, h2, h3, startedOf]
      · simp [h1, h2, h3, startedOf]
  · simp [h1]

theorem workerTrace_fifo (docExists : Nat → Bool) (status0 : Nat → DocStatus)
    (outcome : Nat → Bool) (ds : List Nat) :
    (workerTrace docExists status0 outcome ds).filterMap startedOf = ds := by
  induction ds with
  | nil => rfl
  | cons d ds ih =>
    simp [workerTrace, List.filterMap_append, startedOf,
      processDoc_filterMap, ih]

theorem split_append_cons {α : Type} (l1 l2 pre suf : List α) (a : α)
    (ha : a ∉ l1) (h : l1 ++ l2 = pre ++ a :: suf) :
    ∃ pre2, pre = l1 ++ pre2 ∧ l2 = pre2 ++ a :: suf := by
  induction l1 generalizing pre with
  | nil => exact ⟨pre, by simp, by simpa using h⟩
  | cons x l1 ih =>
    cases pre with
    | nil =>
      simp only [List.nil_append, List.cons_append, List.cons.injEq] at h
      exact absurd (h.1 ▸ List.mem_cons_self x l1) ha
    | cons y pre =>
      simp only [List.cons_append, List.cons.injEq] at h
      obtain ⟨hxy, h⟩ := h
      obtain ⟨pre2, hp, hl⟩ := ih pre (fun hm => ha (List.mem_cons_of_mem x hm)) h
      exact ⟨pre2, by rw [hxy, hp]; rfl, hl⟩

/-- C1: — Single-flight FIFO ingestion: the worker dequeues jobs in FIFO
order (the `started` events of the trace are exactly the queue order), and
for documents D1, D2 enqueued in that order (D1 existing and not already
completed) every `started D2` event is preceded by D1's transition to
`completed` or `failed` — D2's processing never starts before D1 finishes. -/
theorem C1_fifo_single_flight (docExists : Nat → Bool)
    (status0 : Nat → DocStatus) (outcome : Nat → Bool) (d1 d2 : Nat)
    (rest : List Nat) (hne : d1 ≠ d2) (hex : docExists d1 = true)
    (hst : status0 d1 ≠ DocStatus.completed) :
    ((workerTrace docExists status0 outcome (d1 :: d2 :: rest)).filterMap
        startedOf = d1 :: d2 :: rest) ∧
      ∀ pre suf,
        workerTrace docExists status0 outcome (d1 :: d2 :: rest) =
          pre ++ QEvent.started d2 :: suf →
        QEvent.statusSet d1 DocStatus.completed ∈ pre ∨
          QEvent.statusSet d1 DocStatus.failed ∈ pre := by
  refine ⟨workerTrace_fifo docExists status0 outcome _, ?_⟩
  intro pre suf h
  have htrace : workerTrace docExists status0 outcome (d1 :: d2 :: rest) =
      (QEvent.started d1 :: processDoc docExists status0 outcome d1) ++
        workerTrace docExists status0 outcome (d2 :: rest) := by
    simp [workerTrace]
  rw [htrace] at h
  have hnotmem : QEvent.started d2 ∉
      QEvent.started d1 :: processDoc docExists status0 outcome d1 := by
    intro hm
    rcases List.mem_cons.mp hm with he | hm
    · exact hne (by injection he with he; exact he.symm)
    · exact processDoc_no_started docExists status0 outcome d1 d2 hm
  obtain ⟨pre2, hp, _⟩ := split_append_cons _ _ pre suf _ hnotmem h
  have hdone : QEvent.statusSet d1 DocStatus.completed ∈
        processDoc docExists status0 outcome d1 ∨
      QEvent.statusSet d1 DocStatus.failed ∈
        processDoc docExists status0 outcome d1 := by
    unfold processDoc
    rw [hex]
    by_cases h3 : outcome d1
    · exact Or.inl (by simp [hst, h3])
    · exact Or.inr (by simp [hst, h3])
  rcases hdone with hd | hd
  · exact Or.inl (by rw [hp]; exact List.mem_append_left _ (List.mem_cons_of_mem _ hd))
  · exact Or.inr (by rw [hp]; exact List.mem_append_left _ (List.mem_cons_of_mem _ hd))

/-- Witness for C1: three existing pending documents 1, 2, 3 whose jobs
succeed; the trace splits exactly before `started 2`, after document 1's
`completed` transition. -/
theorem C1_fifo_single_flight_witness :
    ((1 : Nat) ≠ 2 ∧ (fun _ : Nat => true) 1 = true ∧
        (fun _ : Nat => DocStatus.pending) 1 ≠ DocStatus.completed) ∧
      (QEvent.statusSet 1 DocStatus.completed ∈
          ([QEvent.started 1, QEvent.statusSet 1 DocStatus.processing,
            QEvent.statusSet 1 DocStatus.completed] : List QEvent) ∨
        QEvent.statusSet 1 DocStatus.failed ∈
          ([QEvent.started 1, QEvent.statusSet 1 DocStatus.processing,
            QEvent.statusSet 1 DocStatus.completed] : List QEvent)) :=
  ⟨⟨by decide, rfl, by decide⟩,
    (C1_fifo_single_flight (fun _ => true) (fun _ => DocStatus.pending)
        (fun _ => true) 1 2 [3] (by decide) rfl (by decide)).2
      [QEvent.started 1, QEvent.statusSet 1 DocStatus.processing,
        QEvent.statusSet 1 DocStatus.completed]
      [QEvent.statusSet 2 DocStatus.processing,
        QEvent.statusSet 2 DocStatus.completed, QEvent.started 3,
        QEvent.statusSet 3 DocStatus.processing,
        QEvent.statusSet 3 DocStatus.completed]
      (by decide)⟩

/-- C8 counterexample: — Reprocessing is NOT permitted from the
`completed` state: for a completed document the endpoint raises
HTTP 400 ("Document is already processed successfully") instead of
resetting it to `pending` and re-enqueueing it. -/
theorem C8_completed_rejected_counterexample :
    reprocess_document (some ⟨DocStatus.completed, some (("boom").toList)⟩)
      [] 7 = Except.error 400 := rfl

/-- C8 (amended): — An explicit reprocess request on a document whose
status is NOT `completed` (in particular `failed`) resets the status to
`pending`, clears the error message and appends the document to the
processing queue; a reprocess request on a `completed` document is rejected
with HTTP 400, and a missing document with HTTP 404. -/
theorem C8_reprocess_resets_non_completed (d : DocRec) (queue : List Nat)
    (docId : Nat) (h : d.status ≠ DocStatus.completed) :
    reprocess_document (some d) queue docId =
        Except.ok ({ d with status := DocStatus.pending, error_message := none },
          queue ++ [docId]) ∧
      (∀ d2 : DocRec, d2.status = DocStatus.completed →
        reprocess_document (some d2) queue docId = Except.error 400) ∧
      reprocess_document none queue docId = Except.error 404 := by
  refine ⟨?_, ?_, rfl⟩
  · simp [reprocess_document, h]
  · intro d2 h2
    simp [reprocess_document, h2]

/-- Witness for the amended C8 at a failed document. -/
theorem C8_reprocess_resets_non_completed_witness :
    (DocRec.status ⟨DocStatus.failed, some (("x").toList)⟩ ≠ DocStatus.completed) ∧
      reprocess_document (some ⟨DocStatus.failed, some (("x").toList)⟩) [4] 7 =
        Except.ok (⟨DocStatus.pending, none⟩, [4, 7]) :=
  ⟨by decide,
    by
      have h := (C8_reprocess_resets_non_completed
        ⟨DocStatus.failed, some (("x").toList)⟩ [4] 7 (by decide)).1
      simpa using h⟩

end EquityLens
